import Mathlib

/-!
Verification of the NFC wallet repository's PIN-based crypto core.

The development shallowly embeds the owned logic of the repository
(`src/app/lib/crypto.ts`, the seed/HKDF module, and the XOR scheme in
`src/app/lib/swig.ts`) over `List Nat` byte strings and `List Char`
JS strings.  The platform primitives the source calls through
`crypto.subtle` (SHA-256, HMAC, PBKDF2, HKDF, AES-256-GCM) and the JS
built-ins `btoa`/`atob` are modelled concretely from their standards
(FIPS 180-4, FIPS 198-1, RFC 2898, RFC 5869, FIPS 197, NIST SP 800-38D,
RFC 4648); randomness (`crypto.getRandomValues`) is modelled by passing
the drawn bytes as an explicit argument.
-/

namespace NFC

/-- A byte string: every element is a value of an 8-bit cell (`Uint8Array`). -/
def Bytes (l : List Nat) : Prop := ∀ b ∈ l, b < 256

instance (l : List Nat) : Decidable (Bytes l) :=
  List.decidableBAll _ l

/-- Pointwise XOR of two byte lists (truncates to the shorter). -/
def xorBytes (a b : List Nat) : List Nat := List.zipWith (fun x y => x ^^^ y) a b

/-- Big-endian bytes of a 32-bit word. -/
def wordBytes (w : Nat) : List Nat :=
  [w / 16777216 % 256, w / 65536 % 256, w / 256 % 256, w % 256]

/-- Big-endian 32-bit words from bytes, 4 bytes per word (partial last group dropped). -/
def bytesToWords : List Nat → List Nat
  | b0 :: b1 :: b2 :: b3 :: rest =>
      (b0 * 16777216 + b1 * 65536 + b2 * 256 + b3) :: bytesToWords rest
  | _ => []

/-- Big-endian 8-byte encoding of a natural number (used for 64-bit lengths). -/
def len64Bytes (n : Nat) : List Nat :=
  (List.range 8).map (fun i => n / 256 ^ (7 - i) % 256)

/-! ## SHA-256 (FIPS 180-4), model of the platform digest -/

/-- Reduction of a sum into a 32-bit word. -/
def mod32 (x : Nat) : Nat := x % 4294967296

/-- Right rotation of a 32-bit word by `n` bits. -/
def rotr32 (n x : Nat) : Nat := mod32 ((x >>> n) ||| (x <<< (32 - n)))

/-- SHA-256 `Ch` function. -/
def shaCh (x y z : Nat) : Nat := (x &&& y) ^^^ ((x ^^^ 4294967295) &&& z)

/-- SHA-256 `Maj` function. -/
def shaMaj (x y z : Nat) : Nat := (x &&& y) ^^^ (x &&& z) ^^^ (y &&& z)

/-- SHA-256 big sigma 0. -/
def bsig0 (x : Nat) : Nat := rotr32 2 x ^^^ rotr32 13 x ^^^ rotr32 22 x

/-- SHA-256 big sigma 1. -/
def bsig1 (x : Nat) : Nat := rotr32 6 x ^^^ rotr32 11 x ^^^ rotr32 25 x

/-- SHA-256 small sigma 0. -/
def ssig0 (x : Nat) : Nat := rotr32 7 x ^^^ rotr32 18 x ^^^ (x >>> 3)

/-- SHA-256 small sigma 1. -/
def ssig1 (x : Nat) : Nat := rotr32 17 x ^^^ rotr32 19 x ^^^ (x >>> 10)

/-- The eight SHA-256 initial hash words. -/
structure Hash8 where
  a : Nat
  b : Nat
  c : Nat
  d : Nat
  e : Nat
  f : Nat
  g : Nat
  h : Nat

/-- SHA-256 initial state: the first 32 bits of the fractional parts of the
square roots of the first eight primes (FIPS 180-4 §5.3.3), here as decimal
32-bit values. -/
def shaInit : Hash8 :=
  ⟨1779033703, 3144134277, 1013904242, 2773480762,
   1359893119, 2600822924, 528734635, 1541459225⟩

/-- The 64 SHA-256 round constants: the first 32 bits of the fractional parts
of the cube roots of the first 64 primes (FIPS 180-4 §4.2.2), as decimal
32-bit values. -/
def shaK : List Nat :=
  [1116352408, 1899447441, 3049323471, 3921009573,
   961987163, 1508970993, 2453635748, 2870763221,
   3624381080, 310598401, 607225278, 1426881987,
   1925078388, 2162078206, 2614888103, 3248222580,
   3835390401, 4022224774, 264347078, 604807628,
   770255983, 1249150122, 1555081692, 1996064986,
   2554220882, 2821834349, 2952996808, 3210313671,
   3336571891, 3584528711, 113926993, 338241895,
   666307205, 773529912, 1294757372, 1396182291,
   1695183700, 1986661051, 2177026350, 2456956037,
   2730485921, 2820302411, 3259730800, 3345764771,
   3516065817, 3600352804, 4094571909, 275423344,
   430227734, 506948616, 659060556, 883997877,
   958139571, 1322822218, 1537002063, 1747873779,
   1955562222, 2024104815, 2227730452, 2361852424,
   2428436474, 2756734187, 3204031479, 3329325298]

/-- Extend the 16 message words to the 64-entry message schedule. -/
def msgSchedule (ws : List Nat) : List Nat :=
  (List.range 48).foldl
    (fun acc i =>
      acc ++ [mod32 (ssig1 (acc.getD (i + 14) 0) + acc.getD (i + 9) 0 +
                     ssig0 (acc.getD (i + 1) 0) + acc.getD i 0)])
    ws

/-- One SHA-256 round; `kw` is the (already summed) round constant plus schedule word. -/
def shaRound (st : Hash8) (kw : Nat) : Hash8 :=
  let t1 := st.h + bsig1 st.e + shaCh st.e st.f st.g + kw
  let t2 := bsig0 st.a + shaMaj st.a st.b st.c
  ⟨mod32 (t1 + t2), st.a, st.b, st.c, mod32 (st.d + t1), st.e, st.f, st.g⟩

/-- Wordwise 32-bit addition of two states. -/
def addHash8 (x y : Hash8) : Hash8 :=
  ⟨mod32 (x.a + y.a), mod32 (x.b + y.b), mod32 (x.c + y.c), mod32 (x.d + y.d),
   mod32 (x.e + y.e), mod32 (x.f + y.f), mod32 (x.g + y.g), mod32 (x.h + y.h)⟩

/-- Compress one 64-byte block into the running state. -/
def shaCompress (st : Hash8) (block : List Nat) : Hash8 :=
  let ws := msgSchedule (bytesToWords block)
  addHash8 st ((List.zipWith (fun k w => k + w) shaK ws).foldl shaRound st)

/-- SHA-256 padding: append `0x80`, zeros, and the 64-bit big-endian bit length. -/
def sha256Pad (msg : List Nat) : List Nat :=
  msg ++ 128 :: List.replicate ((64 - (msg.length + 9) % 64) % 64) 0 ++
    len64Bytes (8 * msg.length)

/-- Split into 64-byte blocks, with fuel for structural recursion. -/
def chunk64Go : Nat → List Nat → List (List Nat)
  | 0, _ => []
  | _, [] => []
  | fuel + 1, l => l.take 64 :: chunk64Go fuel (l.drop 64)

/-- Split a padded message into its 64-byte blocks. -/
def chunk64 (l : List Nat) : List (List Nat) := chunk64Go l.length l

/-- Serialize the final state, big-endian. -/
def hash8Bytes (st : Hash8) : List Nat :=
  wordBytes st.a ++ wordBytes st.b ++ wordBytes st.c ++ wordBytes st.d ++
  wordBytes st.e ++ wordBytes st.f ++ wordBytes st.g ++ wordBytes st.h

/-- SHA-256 of a byte string, as 32 bytes. -/
def sha256 (msg : List Nat) : List Nat :=
  hash8Bytes ((chunk64 (sha256Pad msg)).foldl shaCompress shaInit)

/-! ## HMAC-SHA-256 (FIPS 198-1), model of the platform MAC -/

/-- HMAC-SHA-256 with an arbitrary-length key. -/
def hmacSha256 (key msg : List Nat) : List Nat :=
  let k0 := if 64 < key.length then sha256 key else key
  let k0p := k0 ++ List.replicate (64 - k0.length) 0
  sha256 (k0p.map (fun b => b ^^^ 92) ++ sha256 (k0p.map (fun b => b ^^^ 54) ++ msg))

/-! ## PBKDF2-HMAC-SHA-256 (RFC 2898), model of the platform `deriveBits`/`deriveKey` -/

/-- The tail of the PBKDF2 `U` chain: given `U_j`, iterate `count` more times,
XOR-accumulating into `acc`. -/
def pbkdf2Go (pw : List Nat) : Nat → List Nat → List Nat → List Nat
  | 0, _, acc => acc
  | count + 1, u, acc =>
      let u2 := hmacSha256 pw u
      pbkdf2Go pw count u2 (xorBytes acc u2)

/-- The PBKDF2 block function `F(P, S, c, i) = U_1 XOR ... XOR U_c`. -/
def pbkdf2F (pw salt : List Nat) (c i : Nat) : List Nat :=
  let u1 := hmacSha256 pw (salt ++ wordBytes i)
  pbkdf2Go pw (c - 1) u1 u1

/-- PBKDF2 with HMAC-SHA-256: concatenate blocks `F(P,S,c,1..n)` and truncate
to `dkLen` bytes. -/
def pbkdf2HmacSha256 (pw salt : List Nat) (c dkLen : Nat) : List Nat :=
  (((List.range ((dkLen + 31) / 32)).map (fun i => pbkdf2F pw salt c (i + 1))).flatten).take dkLen

/-! ## HKDF-SHA-256 (RFC 5869), model of the platform `deriveBits` for HKDF -/

/-- HKDF-Extract: `PRK = HMAC-SHA-256(salt, IKM)`. -/
def hkdfExtract (salt ikm : List Nat) : List Nat := hmacSha256 salt ikm

/-- HKDF-Expand blocks `T(1), T(2), ...`: `count` blocks starting at counter `i`
with previous block `prev`. -/
def hkdfExpandGo (prk info : List Nat) : Nat → Nat → List Nat → List Nat
  | 0, _, _ => []
  | count + 1, i, prev =>
      let t := hmacSha256 prk (prev ++ info ++ [i])
      t ++ hkdfExpandGo prk info count (i + 1) t

/-- HKDF-Expand to `L` bytes. -/
def hkdfExpand (prk info : List Nat) (L : Nat) : List Nat :=
  (hkdfExpandGo prk info ((L + 31) / 32) 1 []).take L

/-! ## Base64 (RFC 4648), model of the JS `btoa`/`atob` built-ins -/

/-- The base64 alphabet, by sextet value. -/
def b64Char (n : Nat) : Char :=
  if n < 26 then Char.ofNat (65 + n)
  else if n < 52 then Char.ofNat (97 + (n - 26))
  else if n < 62 then Char.ofNat (48 + (n - 52))
  else if n = 62 then '+'
  else '/'

/-- Sextet value of a base64 character. -/
def b64Val (c : Char) : Nat :=
  if 65 ≤ c.toNat ∧ c.toNat ≤ 90 then c.toNat - 65
  else if 97 ≤ c.toNat ∧ c.toNat ≤ 122 then c.toNat - 97 + 26
  else if 48 ≤ c.toNat ∧ c.toNat ≤ 57 then c.toNat - 48 + 52
  else if c = '+' then 62
  else 63

/-- Model of JS `btoa` on a binary string, i.e. base64 of the byte values. -/
def btoa : List Nat → List Char
  | [] => []
  | [a] => [b64Char (a / 4), b64Char (a % 4 * 16), '=', '=']
  | [a, b] => [b64Char (a / 4), b64Char (a % 4 * 16 + b / 16), b64Char (b % 16 * 4), '=']
  | a :: b :: c :: rest =>
      b64Char (a / 4) :: b64Char (a % 4 * 16 + b / 16) ::
      b64Char (b % 16 * 4 + c / 64) :: b64Char (c % 64) :: btoa rest

/-- Model of JS `atob`: base64 decoding to the byte values (valid input assumed,
as in the repository, where `atob` is only applied to `btoa` output). -/
def atob : List Char → List Nat
  | c1 :: c2 :: c3 :: c4 :: rest =>
      if c3 = '=' then [b64Val c1 * 4 + b64Val c2 / 16]
      else if c4 = '=' then
        [b64Val c1 * 4 + b64Val c2 / 16, b64Val c2 % 16 * 16 + b64Val c3 / 4]
      else
        (b64Val c1 * 4 + b64Val c2 / 16) :: (b64Val c2 % 16 * 16 + b64Val c3 / 4) ::
        (b64Val c3 % 4 * 64 + b64Val c4) :: atob rest
  | _ => []

/-! ## UTF-8 (model of JS `TextEncoder`) and JS string helpers -/

/-- UTF-8 bytes of one Unicode scalar value. -/
def utf8Bytes (c : Char) : List Nat :=
  let n := c.toNat
  if n < 128 then [n]
  else if n < 2048 then [192 + n / 64, 128 + n % 64]
  else if n < 65536 then [224 + n / 4096, 128 + n / 64 % 64, 128 + n % 64]
  else [240 + n / 262144, 128 + n / 4096 % 64, 128 + n / 64 % 64, 128 + n % 64]

/-- Model of `new TextEncoder().encode(s)`. -/
def utf8Encode (s : List Char) : List Nat := (s.map utf8Bytes).flatten

/-- Whitespace as stripped by JS `String.prototype.trim`: the ECMAScript
WhiteSpace and LineTerminator code points — TAB, LF, VT, FF, CR, SP, NBSP
(U+00A0), OGHAM SPACE (U+1680), the Zs range U+2000..U+200A, LS (U+2028),
PS (U+2029), NNBSP (U+202F), MMSP (U+205F), IDEOGRAPHIC SPACE (U+3000), and
ZWNBSP (U+FEFF). -/
def isJsWs (c : Char) : Bool :=
  c.toNat = 9 || c.toNat = 10 || c.toNat = 11 || c.toNat = 12 || c.toNat = 13 ||
  c.toNat = 32 || c.toNat = 160 || c.toNat = 5760 ||
  (8192 ≤ c.toNat && c.toNat ≤ 8202) ||
  c.toNat = 8232 || c.toNat = 8233 || c.toNat = 8239 || c.toNat = 8287 ||
  c.toNat = 12288 || c.toNat = 65279

/-- Model of JS `text.trim()`. -/
def jsTrim (s : List Char) : List Char :=
  (((s.dropWhile isJsWs).reverse).dropWhile isJsWs).reverse

/-! ## AES-256 (FIPS 197), model of the platform block cipher

Only the forward cipher is needed: GCM uses AES solely in counter mode and
for the GHASH subkey and tag mask. -/

/-- Multiplication by `x` in GF(2^8) modulo `x^8 + x^4 + x^3 + x + 1`. -/
def xtime (b : Nat) : Nat :=
  ((b * 2) ^^^ (if 128 ≤ b then 283 else 0)) % 256

/-- GF(2^8) product, Russian-peasant style over 8 bits. -/
def gmulGo : Nat → Nat → Nat → Nat → Nat
  | 0, _, _, acc => acc
  | n + 1, a, b, acc =>
      gmulGo n (xtime a) (b / 2) (if b % 2 = 1 then acc ^^^ a else acc)

/-- GF(2^8) multiplication. -/
def gmul (a b : Nat) : Nat := gmulGo 8 a b 0

/-- GF(2^8) power. -/
def gpow (a : Nat) : Nat → Nat
  | 0 => 1
  | n + 1 => gmul a (gpow a n)

/-- Left rotation of a byte by `n` bits. -/
def rotl8 (n b : Nat) : Nat := ((b <<< n) ||| (b >>> (8 - n))) % 256

/-- The AES S-box: multiplicative inverse (as `b^254`) followed by the affine map. -/
def sbox (a : Nat) : Nat :=
  let b := gpow (a % 256) 254
  (b ^^^ rotl8 1 b ^^^ rotl8 2 b ^^^ rotl8 3 b ^^^ rotl8 4 b ^^^ 99) % 256

/-- Apply the S-box to each byte of a 32-bit word. -/
def subWord (w : Nat) : Nat :=
  sbox (w / 16777216 % 256) * 16777216 + sbox (w / 65536 % 256) * 65536 +
  sbox (w / 256 % 256) * 256 + sbox (w % 256)

/-- Rotate a 32-bit word left by one byte. -/
def rotWord (w : Nat) : Nat := w % 16777216 * 256 + w / 16777216 % 256

/-- AES-256 key-schedule extension step: append one word until 60 words exist. -/
def expandKeyGo : Nat → List Nat → List Nat
  | 0, ws => ws
  | fuel + 1, ws =>
      let i := ws.length
      let prev := ws.getD (i - 1) 0
      let t :=
        if i % 8 = 0 then subWord (rotWord prev) ^^^ (gpow 2 (i / 8 - 1) * 16777216)
        else if i % 8 = 4 then subWord prev
        else prev
      expandKeyGo fuel (ws ++ [mod32 (ws.getD (i - 8) 0 ^^^ t)])

/-- AES-256 key expansion: 60 round-key words from the 32-byte key. -/
def expandKey256 (key : List Nat) : List Nat := expandKeyGo 52 (bytesToWords key)

/-- Bytes of round key `n` (words `4n..4n+3`). -/
def roundKey (ws : List Nat) (n : Nat) : List Nat :=
  wordBytes (ws.getD (4 * n) 0) ++ wordBytes (ws.getD (4 * n + 1) 0) ++
  wordBytes (ws.getD (4 * n + 2) 0) ++ wordBytes (ws.getD (4 * n + 3) 0)

/-- ShiftRows on the 16-byte state (byte `r + 4c` holds row `r`, column `c`). -/
def shiftRows (s : List Nat) : List Nat :=
  (List.range 16).map (fun i => s.getD (i % 4 + 4 * ((i / 4 + i % 4) % 4)) 0)

/-- MixColumns on one column. -/
def mixCol (a0 a1 a2 a3 : Nat) : List Nat :=
  [gmul 2 a0 ^^^ gmul 3 a1 ^^^ a2 ^^^ a3,
   a0 ^^^ gmul 2 a1 ^^^ gmul 3 a2 ^^^ a3,
   a0 ^^^ a1 ^^^ gmul 2 a2 ^^^ gmul 3 a3,
   gmul 3 a0 ^^^ a1 ^^^ a2 ^^^ gmul 2 a3]

/-- MixColumns on the full state. -/
def mixColumns : List Nat → List Nat
  | a0 :: a1 :: a2 :: a3 :: rest => mixCol a0 a1 a2 a3 ++ mixColumns rest
  | l => l

/-- AES-256 forward block cipher on a 16-byte block. -/
def aesEncryptBlock (key block : List Nat) : List Nat :=
  let ws := expandKey256 key
  let st0 := xorBytes block (roundKey ws 0)
  let stMid := (List.range 13).foldl
    (fun st r => xorBytes (mixColumns (shiftRows (st.map sbox))) (roundKey ws (r + 1))) st0
  xorBytes (shiftRows (stMid.map sbox)) (roundKey ws 14)

/-! ## GCM (NIST SP 800-38D), model of the platform `AES-GCM` with a 12-byte IV
and a 128-bit tag -/

/-- Big-endian value of a byte string. -/
def bytesToNat (l : List Nat) : Nat := l.foldl (fun acc b => acc * 256 + b % 256) 0

/-- Big-endian 16-byte encoding of a 128-bit value. -/
def natToBytes16 (x : Nat) : List Nat :=
  (List.range 16).map (fun i => x / 256 ^ (15 - i) % 256)

/-- GF(2^128) product for GHASH (bit-reflected polynomial `R = 0xe1 << 120`). -/
def gf128MulGo : Nat → Nat → Nat → Nat → Nat
  | 0, _, _, z => z
  | n + 1, x, v, z =>
      let z2 := if x / 2 ^ 127 % 2 = 1 then z ^^^ v else z
      let v2 := if v % 2 = 1 then v / 2 ^^^ 225 * 2 ^ 120 else v / 2
      gf128MulGo n (x * 2 % 2 ^ 128) v2 z2

/-- GF(2^128) multiplication. -/
def gf128Mul (x y : Nat) : Nat := gf128MulGo 128 x y 0

/-- Split into 16-byte blocks, with fuel for structural recursion. -/
def chunk16Go : Nat → List Nat → List (List Nat)
  | 0, _ => []
  | _, [] => []
  | fuel + 1, l => l.take 16 :: chunk16Go fuel (l.drop 16)

/-- Split into 16-byte blocks. -/
def chunk16 (l : List Nat) : List (List Nat) := chunk16Go l.length l

/-- GHASH over full blocks. -/
def ghash (h : Nat) (data : List Nat) : Nat :=
  (chunk16 data).foldl (fun y b => gf128Mul (y ^^^ bytesToNat b) h) 0

/-- Zero-pad a byte string up to a multiple of 16 bytes. -/
def gcmPad16 (l : List Nat) : List Nat :=
  l ++ List.replicate ((16 - l.length % 16) % 16) 0

/-- The `i`-th keystream byte for key `key` and a 12-byte IV: byte `i % 16` of
AES applied to the counter block `IV ∥ (i/16 + 2)` (counters for the data
start at 2, the tag mask uses counter 1). -/
def ksByte (key iv : List Nat) (i : Nat) : Nat :=
  (aesEncryptBlock key (iv ++ wordBytes (i / 16 + 2))).getD (i % 16) 0 % 256

/-- XOR a byte list against an indexed keystream, starting at index `i`. -/
def ctrXorGo (f : Nat → Nat) : Nat → List Nat → List Nat
  | _, [] => []
  | i, b :: rest => (b ^^^ f i) :: ctrXorGo f (i + 1) rest

/-- GCM-CTR ciphertext of a plaintext (also the inverse direction). -/
def gcmCiphertext (key iv p : List Nat) : List Nat := ctrXorGo (ksByte key iv) 0 p

/-- The GCM authentication tag over a ciphertext (no associated data):
`GHASH_H(pad(C) ∥ len(A) ∥ len(C)) XOR AES_K(IV ∥ 1)`, 16 bytes. -/
def gcmTag (key iv ct : List Nat) : List Nat :=
  let h := bytesToNat (aesEncryptBlock key (List.replicate 16 0))
  let s := ghash h (gcmPad16 ct ++ len64Bytes 0 ++ len64Bytes (8 * ct.length))
  natToBytes16 (s ^^^ bytesToNat (aesEncryptBlock key (iv ++ wordBytes 1)))

/-- GCM authenticated encryption: ciphertext followed by the 16-byte tag. -/
def gcmEncrypt (key iv p : List Nat) : List Nat :=
  gcmCiphertext key iv p ++ gcmTag key iv (gcmCiphertext key iv p)

/-- GCM authenticated decryption: check the tag over the ciphertext part, then
decrypt; `none` models the platform's `OperationError` on authentication
failure (or on input shorter than the tag). -/
def gcmDecrypt (key iv data : List Nat) : Option (List Nat) :=
  if data.length < 16 then none
  else if gcmTag key iv (data.take (data.length - 16)) = data.drop (data.length - 16) then
    some (ctrXorGo (ksByte key iv) 0 (data.take (data.length - 16)))
  else none

/-! ## `src/app/lib/crypto.ts` — the AES-256-GCM module -/

namespace Crypto

/-- The fixed PBKDF2 salt string of `deriveKeyFromPIN`. -/
def pinSaltChars : List Char := "nfc-smart-account-salt".toList

/-- `deriveKeyFromPIN`: PBKDF2-HMAC-SHA-256 over the UTF-8 bytes of the PIN,
fixed salt, 100000 iterations, 256-bit AES-GCM key. -/
def deriveKeyFromPIN (pin : List Char) : List Nat :=
  pbkdf2HmacSha256 (utf8Encode pin) (utf8Encode pinSaltChars) 100000 32

/-- `encryptWithPIN`: AES-256-GCM under the PIN-derived key; the random
12-byte IV drawn by `crypto.getRandomValues` is the explicit argument `iv`.
Returns base64 of `IV ∥ ciphertext ∥ tag`. -/
def encryptWithPIN (data : List Nat) (pin : List Char) (iv : List Nat) : List Char :=
  btoa (iv ++ gcmEncrypt (deriveKeyFromPIN pin) iv data)

/-- The error message thrown by `decryptWithPIN` on authentication failure. -/
def authErrMsg : List Char := "Decryption failed: Incorrect PIN or corrupted data".toList

/-- `decryptWithPIN`: base64-decode, split off the first 12 bytes as the IV,
AES-256-GCM-decrypt the rest; a failed tag check becomes the fixed error. -/
def decryptWithPIN (encryptedBase64 : List Char) (pin : List Char) :
    Except (List Char) (List Nat) :=
  match gcmDecrypt (deriveKeyFromPIN pin) ((atob encryptedBase64).take 12)
      ((atob encryptedBase64).drop 12) with
  | some pt => Except.ok pt
  | none => Except.error authErrMsg

/-- `WALLET_PREFIX`, the wallet envelope marker. -/
def walletTag : List Char := "SOL1:".toList

/-- `encodeWalletData`. -/
def encodeWalletData (encryptedKey : List Char) : List Char :=
  walletTag ++ encryptedKey

/-- The error message thrown by `decodeWalletData`. -/
def walletFormatMsg : List Char :=
  "Invalid wallet data format. Not a Solana NFC wallet.".toList

/-- `decodeWalletData`: trim, require the marker, return the rest. -/
def decodeWalletData (text : List Char) : Except (List Char) (List Char) :=
  if walletTag.isPrefixOf (jsTrim text) then Except.ok ((jsTrim text).drop walletTag.length)
  else Except.error walletFormatMsg

/-- `isWalletData`, the non-throwing probe. -/
def isWalletData (text : List Char) : Bool :=
  walletTag.isPrefixOf (jsTrim text)

end Crypto

/-! ## The seed/HKDF module (`src/unnamed/part_000`) -/

namespace Seeds

/-- `hkdfDerive`: HKDF-SHA-256 with a 32-byte all-zero salt and the label as
the `info` parameter. -/
def hkdfDerive (seed : List Nat) (info : List Char) (length : Nat) : List Nat :=
  hkdfExpand (hkdfExtract (List.replicate 32 0) seed) (utf8Encode info) length

/-- `deriveEthPrivateKey`. -/
def deriveEthPrivateKey (seed : List Nat) : List Nat :=
  hkdfDerive seed "ethereum".toList 32

/-- `deriveSolPrivateKey`. -/
def deriveSolPrivateKey (seed : List Nat) : List Nat :=
  hkdfDerive seed "solana".toList 32

/-- `SEED_PREFIX`, the seed envelope marker. -/
def seedTag : List Char := "SEED1:".toList

/-- `encodeSeedData`. -/
def encodeSeedData (encryptedSeed : List Char) : List Char :=
  seedTag ++ encryptedSeed

/-- The error message thrown by `decodeSeedData`. -/
def seedFormatMsg : List Char :=
  "Invalid seed data format. Not a smart account NFC tag.".toList

/-- `decodeSeedData`. -/
def decodeSeedData (text : List Char) : Except (List Char) (List Char) :=
  if seedTag.isPrefixOf (jsTrim text) then Except.ok ((jsTrim text).drop seedTag.length)
  else Except.error seedFormatMsg

/-- `isSeedData`, the non-throwing probe. -/
def isSeedData (text : List Char) : Bool :=
  seedTag.isPrefixOf (jsTrim text)

end Seeds

/-! ## `src/app/lib/swig.ts` — `keypairFromSeed` and the XOR scheme -/

namespace Swig

/-- Model of the external `@solana/web3.js` `Keypair`, kept opaque: only the
argument validation in `keypairFromSeed` is owned by the repository. -/
structure SolKeypair where
  seed : List Nat

/-- The error message thrown by `keypairFromSeed`. -/
def seedLenMsg : List Char := "Seed must be exactly 32 bytes".toList

/-- `keypairFromSeed`: reject any seed that is not exactly 32 bytes, then call
the SDK constructor. -/
def keypairFromSeed (seed : List Nat) : Except (List Char) SolKeypair :=
  if seed.length ≠ 32 then Except.error seedLenMsg
  else Except.ok ⟨seed⟩

end Swig

namespace XorCrypto

/-- `hashPIN`: SHA-256 of the UTF-8 bytes of the PIN. -/
def hashPIN (pin : List Char) : List Nat := sha256 (utf8Encode pin)

/-- `xorCrypt`: byte `i` of the result is `data[i] XOR key[i % key.length]`,
stored into a `Uint8Array` cell. -/
def xorCrypt (data key : List Nat) : List Nat :=
  (List.range data.length).map
    (fun i => (data.getD i 0 ^^^ key.getD (i % key.length) 0) % 256)

/-- The XOR module's `encryptWithPIN`: XOR against the hashed PIN, then base64.
No randomness is drawn, so the function is deterministic in `(data, pin)`. -/
def encryptWithPIN (data : List Nat) (pin : List Char) : List Char :=
  btoa (xorCrypt data (hashPIN pin))

/-- The XOR module's `decryptWithPIN`: base64-decode and XOR against the hashed
PIN.  Total: it never signals an authentication failure. -/
def decryptWithPIN (encryptedBase64 : List Char) (pin : List Char) : List Nat :=
  xorCrypt (atob encryptedBase64) (hashPIN pin)

end XorCrypto

/-! ## Byte-string lemmas -/

theorem bytes_append {a b : List Nat} (ha : Bytes a) (hb : Bytes b) : Bytes (a ++ b) := by
  intro x hx
  rcases List.mem_append.mp hx with h | h
  · exact ha x h
  · exact hb x h

theorem bytes_getD {l : List Nat} (h : Bytes l) (i : Nat) : l.getD i 0 < 256 := by
  by_cases hi : i < l.length
  · rw [List.getD_eq_getElem l 0 hi]
    exact h _ (List.getElem_mem hi)
  · rw [List.getD_eq_default l 0 (Nat.le_of_not_lt hi)]
    decide

theorem xor_lt_256 {a b : Nat} (ha : a < 256) (hb : b < 256) : a ^^^ b < 256 := by
  have e : (256 : Nat) = 2 ^ 8 := by norm_num
  rw [e] at ha hb ⊢
  exact Nat.xor_lt_two_pow ha hb

/-! ## Base64 round-trip -/

theorem b64Val_b64Char : ∀ v, v < 64 → b64Val (b64Char v) = v := by decide

theorem b64Char_ne_pad : ∀ v, v < 64 → b64Char v ≠ '=' := by decide

theorem atob_btoa (l : List Nat) (h : Bytes l) : atob (btoa l) = l := by
  induction l using btoa.induct with
  | case1 => rfl
  | case2 a =>
      have ha : a < 256 := h a (by simp)
      show atob [b64Char (a / 4), b64Char (a % 4 * 16), '=', '='] = [a]
      simp only [atob]
      rw [if_pos trivial]
      rw [b64Val_b64Char _ (by omega), b64Val_b64Char _ (by omega)]
      simp only [List.cons.injEq, and_true]
      omega
  | case3 a b =>
      have ha : a < 256 := h a (by simp)
      have hb : b < 256 := h b (by simp)
      show atob [b64Char (a / 4), b64Char (a % 4 * 16 + b / 16), b64Char (b % 16 * 4), '=']
          = [a, b]
      simp only [atob]
      rw [if_pos trivial]
      rw [b64Val_b64Char _ (by omega), b64Val_b64Char _ (by omega),
        b64Val_b64Char _ (by omega)]
      rw [if_neg (b64Char_ne_pad _ (by omega))]
      simp only [List.cons.injEq, and_true]
      omega
  | case4 a b c rest ih =>
      have ha : a < 256 := h a (by simp)
      have hb : b < 256 := h b (by simp)
      have hc : c < 256 := h c (by simp)
      have hrest : Bytes rest := fun x hx => h x (by simp [hx])
      show atob (b64Char (a / 4) :: b64Char (a % 4 * 16 + b / 16) ::
          b64Char (b % 16 * 4 + c / 64) :: b64Char (c % 64) :: btoa rest) = a :: b :: c :: rest
      simp only [atob]
      rw [if_neg (b64Char_ne_pad _ (by omega)), if_neg (b64Char_ne_pad _ (by omega))]
      rw [b64Val_b64Char _ (by omega), b64Val_b64Char _ (by omega),
        b64Val_b64Char _ (by omega), b64Val_b64Char _ (by omega)]
      rw [ih hrest]
      simp only [List.cons.injEq, and_true]
      omega

theorem bytes_btoa_inj {l1 l2 : List Nat} (h1 : Bytes l1) (h2 : Bytes l2)
    (h : btoa l1 = btoa l2) : l1 = l2 := by
  rw [← atob_btoa l1 h1, ← atob_btoa l2 h2, h]

/-! ## CTR keystream lemmas -/

theorem ctrXorGo_length (f : Nat → Nat) (i : Nat) (l : List Nat) :
    (ctrXorGo f i l).length = l.length := by
  induction l generalizing i with
  | nil => rfl
  | cons b rest ih => simp [ctrXorGo, ih]

theorem ctrXorGo_ctrXorGo (f : Nat → Nat) (i : Nat) (l : List Nat) :
    ctrXorGo f i (ctrXorGo f i l) = l := by
  induction l generalizing i with
  | nil => rfl
  | cons b rest ih => simp [ctrXorGo, ih, Nat.xor_cancel_right]

theorem ksByte_lt (key iv : List Nat) (i : Nat) : ksByte key iv i < 256 :=
  Nat.mod_lt _ (by decide)

theorem bytes_ctrXorGo {f : Nat → Nat} (hf : ∀ j, f j < 256) {l : List Nat}
    (hl : Bytes l) (i : Nat) : Bytes (ctrXorGo f i l) := by
  induction l generalizing i with
  | nil => intro x hx; cases hx
  | cons b rest ih =>
      intro x hx
      rcases List.mem_cons.mp hx with rfl | hx2
      · exact xor_lt_256 (hl b (by simp)) (hf i)
      · exact ih (fun y hy => hl y (by simp [hy])) (i + 1) x hx2

/-! ## GCM lemmas -/

theorem gcmTag_length (key iv ct : List Nat) : (gcmTag key iv ct).length = 16 := by
  simp [gcmTag, natToBytes16]

theorem bytes_gcmTag (key iv ct : List Nat) : Bytes (gcmTag key iv ct) := by
  intro x hx
  simp only [gcmTag, natToBytes16, List.mem_map] at hx
  obtain ⟨i, _, rfl⟩ := hx
  exact Nat.mod_lt _ (by decide)

theorem gcmCiphertext_length (key iv p : List Nat) :
    (gcmCiphertext key iv p).length = p.length :=
  ctrXorGo_length _ _ _

theorem bytes_gcmCiphertext (key iv : List Nat) {p : List Nat} (hp : Bytes p) :
    Bytes (gcmCiphertext key iv p) :=
  bytes_ctrXorGo (ksByte_lt key iv) hp 0

theorem bytes_gcmEncrypt (key iv : List Nat) {p : List Nat} (hp : Bytes p) :
    Bytes (gcmEncrypt key iv p) :=
  bytes_append (bytes_gcmCiphertext key iv hp) (bytes_gcmTag _ _ _)

theorem gcmEncrypt_length (key iv p : List Nat) :
    (gcmEncrypt key iv p).length = p.length + 16 := by
  simp [gcmEncrypt, gcmCiphertext_length, gcmTag_length]

theorem gcmDecrypt_gcmEncrypt (key iv p : List Nat) :
    gcmDecrypt key iv (gcmEncrypt key iv p) = some p := by
  have hct : (gcmCiphertext key iv p).length = p.length := gcmCiphertext_length key iv p
  have htg : (gcmTag key iv (gcmCiphertext key iv p)).length = 16 := gcmTag_length _ _ _
  show gcmDecrypt key iv (gcmCiphertext key iv p ++ gcmTag key iv (gcmCiphertext key iv p))
      = some p
  have hlen : (gcmCiphertext key iv p ++ gcmTag key iv (gcmCiphertext key iv p)).length
      = p.length + 16 := by simp [hct, htg]
  unfold gcmDecrypt
  rw [if_neg (by omega)]
  have hn : (gcmCiphertext key iv p ++ gcmTag key iv (gcmCiphertext key iv p)).length - 16
      = (gcmCiphertext key iv p).length := by omega
  rw [hn, List.take_left, List.drop_left, if_pos rfl]
  simp only [gcmCiphertext, ctrXorGo_ctrXorGo]

/-! ## Digest and key-derivation lemmas -/

theorem bytes_wordBytes (w : Nat) : Bytes (wordBytes w) := by
  intro x hx
  simp only [wordBytes, List.mem_cons, List.not_mem_nil, or_false] at hx
  rcases hx with rfl | rfl | rfl | rfl
  all_goals exact Nat.mod_lt _ (by decide)

theorem sha256_length (msg : List Nat) : (sha256 msg).length = 32 := by
  simp [sha256, hash8Bytes, wordBytes]

theorem bytes_sha256 (msg : List Nat) : Bytes (sha256 msg) := by
  intro x hx
  unfold sha256 hash8Bytes at hx
  simp only [List.mem_append] at hx
  rcases hx with (((((((h | h) | h) | h) | h) | h) | h) | h)
  all_goals exact bytes_wordBytes _ x h

theorem hmacSha256_length (key msg : List Nat) : (hmacSha256 key msg).length = 32 := by
  simp [hmacSha256, sha256_length]

theorem bytes_hmacSha256 (key msg : List Nat) : Bytes (hmacSha256 key msg) :=
  bytes_sha256 _

theorem pbkdf2Go_length (pw : List Nat) :
    ∀ (c : Nat) (u acc : List Nat), acc.length = 32 → (pbkdf2Go pw c u acc).length = 32 := by
  intro c
  induction c with
  | zero => intro u acc h; exact h
  | succ n ih =>
      intro u acc h
      simp only [pbkdf2Go]
      exact ih _ _ (by simp [xorBytes, List.length_zipWith, h, hmacSha256_length])

theorem pbkdf2F_length (pw salt : List Nat) (c i : Nat) : (pbkdf2F pw salt c i).length = 32 := by
  unfold pbkdf2F
  exact pbkdf2Go_length pw _ _ _ (hmacSha256_length _ _)

theorem pbkdf2_dk32 (pw salt : List Nat) (c : Nat) :
    pbkdf2HmacSha256 pw salt c 32 = pbkdf2F pw salt c 1 := by
  have h1 : (32 + 31) / 32 = 1 := by norm_num
  have h2 : List.range 1 = [0] := by simp [List.range_succ]
  simp only [pbkdf2HmacSha256, h1, h2, List.map_cons, List.map_nil,
    List.flatten_cons, List.flatten_nil, List.append_nil]
  exact List.take_of_length_le (pbkdf2F_length pw salt c 1).le

theorem hkdfExpandGo_length (prk info : List Nat) :
    ∀ (count i : Nat) (prev : List Nat),
      (hkdfExpandGo prk info count i prev).length = 32 * count := by
  intro count
  induction count with
  | zero => intro i prev; rfl
  | succ n ih =>
      intro i prev
      simp only [hkdfExpandGo, List.length_append, hmacSha256_length, ih]
      ring

theorem hkdfDerive_length (seed : List Nat) (info : List Char) (L : Nat) :
    (Seeds.hkdfDerive seed info L).length = L := by
  unfold Seeds.hkdfDerive hkdfExpand
  rw [List.length_take, hkdfExpandGo_length]
  omega

/-! ## Envelope and trim lemmas -/

theorem dropWhile_eq_self_head (l : List Char)
    (h : ∀ c, l.head? = some c → isJsWs c = false) : l.dropWhile isJsWs = l := by
  cases l with
  | nil => rfl
  | cons c cs =>
      have hc := h c rfl
      simp [List.dropWhile_cons, hc]

theorem jsTrim_eq_self (l : List Char)
    (hh : ∀ c, l.head? = some c → isJsWs c = false)
    (hl : ∀ c, l.getLast? = some c → isJsWs c = false) : jsTrim l = l := by
  unfold jsTrim
  rw [dropWhile_eq_self_head l hh]
  rw [dropWhile_eq_self_head l.reverse
    (fun c hc => hl c (by rwa [List.getLast?_eq_head?_reverse]))]
  exact List.reverse_reverse l

/-- A token whose last character is not whitespace (or the empty token). -/
def noTrailingWs (t : List Char) : Bool :=
  match t.getLast? with
  | none => true
  | some c => !isJsWs c

theorem jsTrim_marker_append (mk t : List Char) (hmk1 : ∀ c, mk.head? = some c → isJsWs c = false)
    (hmk2 : ∀ c, mk.getLast? = some c → isJsWs c = false)
    (hmknil : mk ≠ []) (ht : noTrailingWs t = true) :
    jsTrim (mk ++ t) = mk ++ t := by
  apply jsTrim_eq_self
  · intro c hc
    cases mk with
    | nil => exact absurd rfl hmknil
    | cons m ms =>
        simp only [List.cons_append, List.head?_cons, Option.some.injEq] at hc
        exact hmk1 c (by rw [List.head?_cons, hc])
  · intro c hc
    rw [List.getLast?_append] at hc
    cases hlast : t.getLast? with
    | some c2 =>
        rw [hlast] at hc
        rw [Option.or_some] at hc
        unfold noTrailingWs at ht
        rw [hlast] at ht
        cases hc
        simpa using ht
    | none =>
        rw [hlast] at hc
        simp only [Option.none_or] at hc
        exact hmk2 c hc

theorem isPrefixOf_append (mk t : List Char) : mk.isPrefixOf (mk ++ t) = true := by
  induction mk with
  | nil => simp [List.isPrefixOf]
  | cons c cs ih =>
      show (c == c && cs.isPrefixOf (cs ++ t)) = true
      simp [ih]

theorem decode_encode_wallet (t : List Char) (ht : noTrailingWs t = true) :
    Crypto.decodeWalletData (Crypto.encodeWalletData t) = Except.ok t := by
  have htrim : jsTrim (Crypto.walletTag ++ t) = Crypto.walletTag ++ t := by
    apply jsTrim_marker_append _ _ _ _ _ ht
    · intro c hc
      rw [show Crypto.walletTag.head? = some 'S' from rfl] at hc
      cases hc
      rfl
    · intro c hc
      rw [show Crypto.walletTag.getLast? = some ':' from rfl] at hc
      cases hc
      rfl
    · decide
  unfold Crypto.encodeWalletData Crypto.decodeWalletData
  rw [htrim, if_pos (isPrefixOf_append _ _), List.drop_left]

theorem decode_encode_seed (t : List Char) (ht : noTrailingWs t = true) :
    Seeds.decodeSeedData (Seeds.encodeSeedData t) = Except.ok t := by
  have htrim : jsTrim (Seeds.seedTag ++ t) = Seeds.seedTag ++ t := by
    apply jsTrim_marker_append _ _ _ _ _ ht
    · intro c hc
      rw [show Seeds.seedTag.head? = some 'S' from rfl] at hc
      cases hc
      rfl
    · intro c hc
      rw [show Seeds.seedTag.getLast? = some ':' from rfl] at hc
      cases hc
      rfl
    · decide
  unfold Seeds.encodeSeedData Seeds.decodeSeedData
  rw [htrim, if_pos (isPrefixOf_append _ _), List.drop_left]

/-! ## XOR-scheme lemmas -/

theorem bytes_xorCrypt (d k : List Nat) : Bytes (XorCrypto.xorCrypt d k) := by
  intro x hx
  simp only [XorCrypto.xorCrypt, List.mem_map] at hx
  obtain ⟨i, _, rfl⟩ := hx
  exact Nat.mod_lt _ (by decide)

theorem xorCrypt_length (d k : List Nat) : (XorCrypto.xorCrypt d k).length = d.length := by
  simp [XorCrypto.xorCrypt]

theorem xorCrypt_getElem (d k : List Nat) (i : Nat)
    (h : i < (XorCrypto.xorCrypt d k).length) :
    (XorCrypto.xorCrypt d k)[i] = (d.getD i 0 ^^^ k.getD (i % k.length) 0) % 256 := by
  unfold XorCrypto.xorCrypt
  rw [List.getElem_map, List.getElem_range]

theorem xorCrypt_xorCrypt {d k : List Nat} (hd : Bytes d) (hk : Bytes k) :
    XorCrypto.xorCrypt (XorCrypto.xorCrypt d k) k = d := by
  apply List.ext_getElem
  · simp [xorCrypt_length]
  · intro i h1 h2
    have hi : i < d.length := h2
    have hlen : i < (XorCrypto.xorCrypt d k).length := by rwa [xorCrypt_length]
    rw [xorCrypt_getElem, List.getD_eq_getElem _ _ hlen, xorCrypt_getElem]
    have hdi : d.getD i 0 < 256 := bytes_getD hd i
    have hki : k.getD (i % k.length) 0 < 256 := bytes_getD hk _
    have hx : d.getD i 0 ^^^ k.getD (i % k.length) 0 < 256 := xor_lt_256 hdi hki
    rw [Nat.mod_eq_of_lt hx, Nat.xor_cancel_right, Nat.mod_eq_of_lt hdi]
    exact List.getD_eq_getElem d 0 hi

/-! ## Claim theorems -/

/-- C1: for every byte payload `P` (any length, including empty) and every
non-empty PIN `pin`, AES-GCM decryption of the AES-GCM encryption of `P` under
the same PIN returns exactly `P`.  The fresh random 12-byte IV drawn inside
`encryptWithPIN` is modelled by the explicit byte argument `iv`. -/
theorem C1_aes_gcm_roundtrip (P : List Nat) (pin : List Char) (iv : List Nat)
    (hP : Bytes P) (_hpin : pin ≠ []) (hiv : Bytes iv) (hivlen : iv.length = 12) :
    Crypto.decryptWithPIN (Crypto.encryptWithPIN P pin iv) pin = Except.ok P := by
  unfold Crypto.encryptWithPIN Crypto.decryptWithPIN
  rw [atob_btoa _ (bytes_append hiv (bytes_gcmEncrypt _ _ hP))]
  rw [List.take_left' hivlen, List.drop_left' hivlen, gcmDecrypt_gcmEncrypt]

/-- Witness for C1 at a concrete payload, PIN, and IV. -/
theorem C1_aes_gcm_roundtrip_witness :
    Bytes [1, 2, 3] ∧ "1234".toList ≠ ([] : List Char)
    ∧ Bytes [0, 1, 2, 3, 4, 5, 6, 7, 8, 9, 10, 11]
    ∧ ([0, 1, 2, 3, 4, 5, 6, 7, 8, 9, 10, 11] : List Nat).length = 12
    ∧ Crypto.decryptWithPIN
        (Crypto.encryptWithPIN [1, 2, 3] "1234".toList [0, 1, 2, 3, 4, 5, 6, 7, 8, 9, 10, 11])
        "1234".toList = Except.ok [1, 2, 3] :=
  ⟨by decide, by decide, by decide, by decide,
   C1_aes_gcm_roundtrip [1, 2, 3] "1234".toList [0, 1, 2, 3, 4, 5, 6, 7, 8, 9, 10, 11]
     (by decide) (by decide) (by decide) (by decide)⟩

/-- Reference definition following the spec's words: PBKDF2-HMAC-SHA-256 over
the UTF-8 bytes of the PIN with the fixed salt `nfc-smart-account-salt` and
100000 iterations, producing exactly 256 bits — i.e. the single 32-byte block
`F(P, S, 100000, 1)`, the XOR of the iterated HMAC chain `U_1 .. U_100000`. -/
def pinKeyOfSpec (pin : List Char) : List Nat :=
  pbkdf2F (utf8Encode pin) (utf8Encode "nfc-smart-account-salt".toList) 100000 1

/-- C4: `deriveKeyFromPIN` equals the reference PBKDF2-HMAC-SHA-256 definition
(fixed salt, 100000 iterations), always yields exactly 32 bytes (256 bits), and
is deterministic: equal PINs give equal keys. -/
theorem C4_pin_key_derivation (pin : List Char) :
    Crypto.deriveKeyFromPIN pin = pinKeyOfSpec pin
    ∧ (Crypto.deriveKeyFromPIN pin).length = 32
    ∧ (∀ pin2 : List Char, pin2 = pin →
        Crypto.deriveKeyFromPIN pin2 = Crypto.deriveKeyFromPIN pin) := by
  refine ⟨?_, ?_, ?_⟩
  · unfold Crypto.deriveKeyFromPIN pinKeyOfSpec Crypto.pinSaltChars
    exact pbkdf2_dk32 _ _ _
  · unfold Crypto.deriveKeyFromPIN
    rw [pbkdf2_dk32]
    exact pbkdf2F_length _ _ _ _
  · intro pin2 h
    rw [h]

/-- Witness for C4 at a concrete PIN. -/
theorem C4_pin_key_derivation_witness :
    Crypto.deriveKeyFromPIN "1234".toList = pinKeyOfSpec "1234".toList
    ∧ (Crypto.deriveKeyFromPIN "1234".toList).length = 32
    ∧ Crypto.deriveKeyFromPIN "1234".toList = Crypto.deriveKeyFromPIN "1234".toList :=
  ⟨(C4_pin_key_derivation "1234".toList).1, (C4_pin_key_derivation "1234".toList).2.1,
   (C4_pin_key_derivation "1234".toList).2.2 "1234".toList rfl⟩

/-- C6: the base64-decoded token is exactly `IV ∥ ciphertext ∥ tag` with a
12-byte IV, a ciphertext as long as the plaintext, and a 16-byte tag (total
`12 + |P| + 16`), and `decryptWithPIN` parses a token by taking the first 12
bytes as the IV and the rest as ciphertext-plus-tag. -/
theorem C6_token_structure (P : List Nat) (pin : List Char) (iv : List Nat)
    (hP : Bytes P) (hiv : Bytes iv) (hivlen : iv.length = 12) :
    atob (Crypto.encryptWithPIN P pin iv)
      = iv ++ (gcmCiphertext (Crypto.deriveKeyFromPIN pin) iv P
          ++ gcmTag (Crypto.deriveKeyFromPIN pin) iv
              (gcmCiphertext (Crypto.deriveKeyFromPIN pin) iv P))
    ∧ (gcmCiphertext (Crypto.deriveKeyFromPIN pin) iv P).length = P.length
    ∧ (gcmTag (Crypto.deriveKeyFromPIN pin) iv
        (gcmCiphertext (Crypto.deriveKeyFromPIN pin) iv P)).length = 16
    ∧ (atob (Crypto.encryptWithPIN P pin iv)).length = 12 + (P.length + 16)
    ∧ (∀ tok pin2 : List Char,
        Crypto.decryptWithPIN tok pin2 =
          match gcmDecrypt (Crypto.deriveKeyFromPIN pin2) ((atob tok).take 12)
              ((atob tok).drop 12) with
          | some pt => Except.ok pt
          | none => Except.error Crypto.authErrMsg) := by
  have hdec : atob (Crypto.encryptWithPIN P pin iv)
      = iv ++ gcmEncrypt (Crypto.deriveKeyFromPIN pin) iv P := by
    unfold Crypto.encryptWithPIN
    exact atob_btoa _ (bytes_append hiv (bytes_gcmEncrypt _ _ hP))
  refine ⟨by rw [hdec]; rfl, gcmCiphertext_length _ _ _, gcmTag_length _ _ _, ?_,
    fun tok pin2 => rfl⟩
  rw [hdec]
  simp [List.length_append, gcmEncrypt_length, hivlen]

/-- Witness for C6 at a concrete payload, PIN, and IV. -/
theorem C6_token_structure_witness :
    Bytes [7, 8] ∧ Bytes [0, 1, 2, 3, 4, 5, 6, 7, 8, 9, 10, 11]
    ∧ ([0, 1, 2, 3, 4, 5, 6, 7, 8, 9, 10, 11] : List Nat).length = 12
    ∧ (atob (Crypto.encryptWithPIN [7, 8] "1234".toList
        [0, 1, 2, 3, 4, 5, 6, 7, 8, 9, 10, 11])).length = 12 + (2 + 16) :=
  ⟨by decide, by decide, by decide,
   (C6_token_structure [7, 8] "1234".toList [0, 1, 2, 3, 4, 5, 6, 7, 8, 9, 10, 11]
     (by decide) (by decide) (by decide)).2.2.2.1⟩

/-- C7: `encryptWithPIN` calls that draw distinct 12-byte IVs produce distinct
base64 tokens, for the same plaintext and PIN; hence any sequence of encrypt
calls whose drawn nonces are pairwise distinct yields pairwise distinct
tokens. -/
theorem C7_distinct_nonce_distinct_tokens (P : List Nat) (pin : List Char)
    (iv1 iv2 : List Nat) (hP : Bytes P) (h1 : Bytes iv1) (h2 : Bytes iv2)
    (l1 : iv1.length = 12) (l2 : iv2.length = 12) (hne : iv1 ≠ iv2) :
    Crypto.encryptWithPIN P pin iv1 ≠ Crypto.encryptWithPIN P pin iv2 := by
  intro heq
  apply hne
  unfold Crypto.encryptWithPIN at heq
  have hbytes := bytes_btoa_inj (bytes_append h1 (bytes_gcmEncrypt _ _ hP))
    (bytes_append h2 (bytes_gcmEncrypt _ _ hP)) heq
  have htake := congrArg (List.take 12) hbytes
  rwa [List.take_left' l1, List.take_left' l2] at htake

/-- Witness for C7 at two concrete distinct IVs. -/
theorem C7_distinct_nonce_distinct_tokens_witness :
    Bytes [5] ∧ Bytes [0, 0, 0, 0, 0, 0, 0, 0, 0, 0, 0, 0]
    ∧ Bytes [0, 0, 0, 0, 0, 0, 0, 0, 0, 0, 0, 1]
    ∧ ([0, 0, 0, 0, 0, 0, 0, 0, 0, 0, 0, 0] : List Nat) ≠ [0, 0, 0, 0, 0, 0, 0, 0, 0, 0, 0, 1]
    ∧ Crypto.encryptWithPIN [5] "1234".toList [0, 0, 0, 0, 0, 0, 0, 0, 0, 0, 0, 0]
      ≠ Crypto.encryptWithPIN [5] "1234".toList [0, 0, 0, 0, 0, 0, 0, 0, 0, 0, 0, 1] :=
  ⟨by decide, by decide, by decide, by decide,
   C7_distinct_nonce_distinct_tokens [5] "1234".toList _ _
     (by decide) (by decide) (by decide) (by decide) (by decide) (by decide)⟩

/-- C2 (amended): the AES-GCM variant fails closed — decrypting an
`encryptWithPIN` token under a second PIN returns the fixed authentication
error exactly when the GCM tag recomputed under the second PIN's derived key
differs from the stored tag (which, for distinct derived keys, holds except on
a negligible tag collision); it never returns bytes with a failed tag check.
The XOR variant's `decryptWithPIN` never raises: it always returns the XOR
stream applied under the second PIN's hash. -/
theorem C2_wrong_key_amended :
    (∀ (P : List Nat) (pin1 pin2 : List Char) (iv : List Nat),
      Bytes P → Bytes iv → iv.length = 12 →
      Crypto.decryptWithPIN (Crypto.encryptWithPIN P pin1 iv) pin2 =
        if gcmTag (Crypto.deriveKeyFromPIN pin2) iv
              (gcmCiphertext (Crypto.deriveKeyFromPIN pin1) iv P)
            = gcmTag (Crypto.deriveKeyFromPIN pin1) iv
              (gcmCiphertext (Crypto.deriveKeyFromPIN pin1) iv P)
        then Except.ok (ctrXorGo (ksByte (Crypto.deriveKeyFromPIN pin2) iv) 0
              (gcmCiphertext (Crypto.deriveKeyFromPIN pin1) iv P))
        else Except.error Crypto.authErrMsg)
    ∧ (∀ (P : List Nat) (pin1 pin2 : List Char), Bytes P →
        XorCrypto.decryptWithPIN (XorCrypto.encryptWithPIN P pin1) pin2 =
          XorCrypto.xorCrypt (XorCrypto.xorCrypt P (XorCrypto.hashPIN pin1))
            (XorCrypto.hashPIN pin2)) := by
  constructor
  · intro P pin1 pin2 iv hP hiv hivlen
    unfold Crypto.encryptWithPIN Crypto.decryptWithPIN
    rw [atob_btoa _ (bytes_append hiv (bytes_gcmEncrypt _ _ hP))]
    rw [List.take_left' hivlen, List.drop_left' hivlen]
    simp only [gcmEncrypt, gcmDecrypt]
    have hct := gcmCiphertext_length (Crypto.deriveKeyFromPIN pin1) iv P
    have htg := gcmTag_length (Crypto.deriveKeyFromPIN pin1) iv
      (gcmCiphertext (Crypto.deriveKeyFromPIN pin1) iv P)
    have hlen : (gcmCiphertext (Crypto.deriveKeyFromPIN pin1) iv P
        ++ gcmTag (Crypto.deriveKeyFromPIN pin1) iv
          (gcmCiphertext (Crypto.deriveKeyFromPIN pin1) iv P)).length = P.length + 16 := by
      simp [hct, htg]
    rw [if_neg (by omega)]
    have hn : (gcmCiphertext (Crypto.deriveKeyFromPIN pin1) iv P
        ++ gcmTag (Crypto.deriveKeyFromPIN pin1) iv
          (gcmCiphertext (Crypto.deriveKeyFromPIN pin1) iv P)).length - 16
        = (gcmCiphertext (Crypto.deriveKeyFromPIN pin1) iv P).length := by omega
    rw [hn, List.take_left, List.drop_left]
    by_cases hc : gcmTag (Crypto.deriveKeyFromPIN pin2) iv
        (gcmCiphertext (Crypto.deriveKeyFromPIN pin1) iv P)
        = gcmTag (Crypto.deriveKeyFromPIN pin1) iv
          (gcmCiphertext (Crypto.deriveKeyFromPIN pin1) iv P)
    · rw [if_pos hc, if_pos hc]
    · rw [if_neg hc, if_neg hc]
  · intro P pin1 pin2 hP
    unfold XorCrypto.encryptWithPIN XorCrypto.decryptWithPIN
    rw [atob_btoa _ (bytes_xorCrypt _ _)]

/-- Counterexample for C2 as stated: the XOR variant's `decryptWithPIN` under a
wrong PIN returns a byte string (garbage, not the plaintext) instead of raising
an authentication error. -/
theorem C2_counterexample :
    XorCrypto.decryptWithPIN (XorCrypto.encryptWithPIN [1, 2, 3, 4] "1234".toList)
      "5678".toList = [250, 205, 239, 209]
    ∧ ([250, 205, 239, 209] : List Nat) ≠ [1, 2, 3, 4] := by
  constructor
  · decide
  · decide

/-- Witness for the amended C2 at concrete inputs. -/
theorem C2_wrong_key_amended_witness :
    Crypto.decryptWithPIN
        (Crypto.encryptWithPIN [1, 2] "1234".toList [0, 1, 2, 3, 4, 5, 6, 7, 8, 9, 10, 11])
        "5678".toList =
      (if gcmTag (Crypto.deriveKeyFromPIN "5678".toList) [0, 1, 2, 3, 4, 5, 6, 7, 8, 9, 10, 11]
            (gcmCiphertext (Crypto.deriveKeyFromPIN "1234".toList)
              [0, 1, 2, 3, 4, 5, 6, 7, 8, 9, 10, 11] [1, 2])
          = gcmTag (Crypto.deriveKeyFromPIN "1234".toList) [0, 1, 2, 3, 4, 5, 6, 7, 8, 9, 10, 11]
            (gcmCiphertext (Crypto.deriveKeyFromPIN "1234".toList)
              [0, 1, 2, 3, 4, 5, 6, 7, 8, 9, 10, 11] [1, 2])
        then Except.ok (ctrXorGo (ksByte (Crypto.deriveKeyFromPIN "5678".toList)
              [0, 1, 2, 3, 4, 5, 6, 7, 8, 9, 10, 11]) 0
              (gcmCiphertext (Crypto.deriveKeyFromPIN "1234".toList)
                [0, 1, 2, 3, 4, 5, 6, 7, 8, 9, 10, 11] [1, 2]))
        else Except.error Crypto.authErrMsg)
    ∧ XorCrypto.decryptWithPIN (XorCrypto.encryptWithPIN [1, 2] "1234".toList) "5678".toList
        = XorCrypto.xorCrypt (XorCrypto.xorCrypt [1, 2] (XorCrypto.hashPIN "1234".toList))
            (XorCrypto.hashPIN "5678".toList) :=
  ⟨C2_wrong_key_amended.1 [1, 2] "1234".toList "5678".toList
      [0, 1, 2, 3, 4, 5, 6, 7, 8, 9, 10, 11] (by decide) (by decide) (by decide),
   C2_wrong_key_amended.2 [1, 2] "1234".toList "5678".toList (by decide)⟩

/-- C3 (amended): for both payload kinds, decoding the encoding returns the
original token for every token that does not end in whitespace (the source
trims the stored text before checking the marker, so a trailing-whitespace
token is returned trimmed), and decoding the unrecognized string `garbage`
yields the format error of each decoder, without any cryptographic
operation. -/
theorem C3_envelope_amended :
    (∀ t : List Char, noTrailingWs t = true →
        Crypto.decodeWalletData (Crypto.encodeWalletData t) = Except.ok t
        ∧ Seeds.decodeSeedData (Seeds.encodeSeedData t) = Except.ok t)
    ∧ Crypto.decodeWalletData "garbage".toList = Except.error Crypto.walletFormatMsg
    ∧ Seeds.decodeSeedData "garbage".toList = Except.error Seeds.seedFormatMsg :=
  ⟨fun t ht => ⟨decode_encode_wallet t ht, decode_encode_seed t ht⟩, rfl, rfl⟩

/-- Counterexample for C3 as stated: a token consisting of one space character
is trimmed away by the decoder, so decoding the encoding returns the empty
token instead of the original. -/
theorem C3_counterexample :
    Crypto.decodeWalletData (Crypto.encodeWalletData [' ']) = Except.ok []
    ∧ ([] : List Char) ≠ [' '] :=
  ⟨rfl, by decide⟩

/-- Witness for the amended C3. -/
theorem C3_envelope_amended_witness :
    noTrailingWs "abc".toList = true
    ∧ Crypto.decodeWalletData (Crypto.encodeWalletData "abc".toList) = Except.ok "abc".toList
    ∧ Seeds.decodeSeedData (Seeds.encodeSeedData "abc".toList) = Except.ok "abc".toList :=
  ⟨by decide, (C3_envelope_amended.1 "abc".toList (by decide)).1,
   (C3_envelope_amended.1 "abc".toList (by decide)).2⟩

/-- C8: each recognition probe is a total boolean function (it cannot throw),
and it returns `true` exactly when the corresponding decoder succeeds. -/
theorem C8_probe_consistency (t : List Char) :
    (Crypto.isWalletData t = true ↔ ∃ s, Crypto.decodeWalletData t = Except.ok s)
    ∧ (Seeds.isSeedData t = true ↔ ∃ s, Seeds.decodeSeedData t = Except.ok s) := by
  constructor
  · unfold Crypto.isWalletData Crypto.decodeWalletData
    by_cases h : Crypto.walletTag.isPrefixOf (jsTrim t) = true
    · simp [h]
    · simp [h]
  · unfold Seeds.isSeedData Seeds.decodeSeedData
    by_cases h : Seeds.seedTag.isPrefixOf (jsTrim t) = true
    · simp [h]
    · simp [h]

/-- C9 (amended): `keypairFromSeed` rejects any seed that is not exactly 32
bytes with the fixed InputError, while `hkdfDerive` performs no seed-length
validation: for a seed of any length it proceeds and returns an output of the
requested length. -/
theorem C9_seed_validation_amended (seed : List Nat) (h : seed.length ≠ 32) :
    Swig.keypairFromSeed seed = Except.error Swig.seedLenMsg
    ∧ ∀ (label : List Char) (L : Nat), (Seeds.hkdfDerive seed label L).length = L := by
  constructor
  · unfold Swig.keypairFromSeed
    rw [if_pos h]
  · intro label L
    exact hkdfDerive_length _ _ _

/-- Counterexample for C9 as stated: a 3-byte seed is not rejected by
`hkdfDerive` — the call proceeds and produces a 32-byte derived key. -/
theorem C9_counterexample :
    ([1, 2, 3] : List Nat).length ≠ 32
    ∧ (Seeds.hkdfDerive [1, 2, 3] "ethereum".toList 32).length = 32 :=
  ⟨by decide, hkdfDerive_length [1, 2, 3] "ethereum".toList 32⟩

/-- Witness for the amended C9. -/
theorem C9_seed_validation_amended_witness :
    Swig.keypairFromSeed [1, 2, 3] = Except.error Swig.seedLenMsg
    ∧ (Seeds.hkdfDerive [1, 2, 3] "solana".toList 16).length = 16 :=
  ⟨(C9_seed_validation_amended [1, 2, 3] (by decide)).1,
   (C9_seed_validation_amended [1, 2, 3] (by decide)).2 "solana".toList 16⟩

/-- C10: in the XOR module, `xorCrypt` with one key is an involution on byte
strings, so decrypting the encryption under the same PIN returns the payload
exactly; and `encryptWithPIN` draws no randomness — it is fully deterministic
in `(data, pin)`. -/
theorem C10_xor_involution_roundtrip :
    (∀ d k : List Nat, Bytes d → Bytes k → k ≠ [] →
        XorCrypto.xorCrypt (XorCrypto.xorCrypt d k) k = d)
    ∧ (∀ (P : List Nat) (pin : List Char), Bytes P →
        XorCrypto.decryptWithPIN (XorCrypto.encryptWithPIN P pin) pin = P)
    ∧ (∀ (d1 d2 : List Nat) (p1 p2 : List Char), d1 = d2 → p1 = p2 →
        XorCrypto.encryptWithPIN d1 p1 = XorCrypto.encryptWithPIN d2 p2) := by
  refine ⟨fun d k hd hk _ => xorCrypt_xorCrypt hd hk, ?_, ?_⟩
  · intro P pin hP
    unfold XorCrypto.encryptWithPIN XorCrypto.decryptWithPIN
    rw [atob_btoa _ (bytes_xorCrypt _ _)]
    exact xorCrypt_xorCrypt hP (bytes_sha256 _)
  · intro d1 d2 p1 p2 h1 h2
    rw [h1, h2]

/-- Witness for C10 at concrete inputs. -/
theorem C10_xor_involution_roundtrip_witness :
    XorCrypto.xorCrypt (XorCrypto.xorCrypt [1, 2, 3] [9, 17]) [9, 17] = [1, 2, 3]
    ∧ XorCrypto.decryptWithPIN (XorCrypto.encryptWithPIN [5, 6, 7] "1234".toList)
        "1234".toList = [5, 6, 7]
    ∧ XorCrypto.encryptWithPIN [4] "9".toList = XorCrypto.encryptWithPIN [4] "9".toList :=
  ⟨C10_xor_involution_roundtrip.1 [1, 2, 3] [9, 17] (by decide) (by decide) (by decide),
   C10_xor_involution_roundtrip.2.1 [5, 6, 7] "1234".toList (by decide),
   C10_xor_involution_roundtrip.2.2 [4] [4] "9".toList "9".toList rfl rfl⟩

end NFC
